import Mathlib

/-!
Verification development for the declarative-scoop reconciliation tool.

The two Rust sources (src/main.rs, src/client.rs) are embedded shallowly:
pure fragments become Lean functions over lists of characters, the
effectful breadth-first dependency resolver becomes an explicit fuelled
state-passing loop over a finite package universe, and the shutdown
routine of the PowerShell client becomes its trace of host actions.

The file is organised as definitions first, theorems second.
-/

namespace DeclarativeScoop

/-! ## Command quoting (client.rs, PowerShellClient::exec, lines 104-116)

The Rust closure `quote` inspects one argument string: an argument that
contains a double quote is wrapped in single quotes; otherwise one that
contains a space or a single quote is wrapped in double quotes; otherwise
it is returned unchanged. Strings are modelled as lists of characters. -/

def quote (s : List Char) : List Char :=
  if s.contains '"' then '\'' :: (s ++ ['\''])
  else if s.contains ' ' || s.contains '\'' then '"' :: (s ++ ['"'])
  else s

/-! ## Exit-code recovery (client.rs, PowerShellClient::exec, lines 170-183)

After draining, the Rust code runs `stdout_str.rfind("EXIT_CODE:")`; if the
tag is absent it bails out, otherwise it parses the text after the tag with
`parse::<i32>().unwrap_or(-1)` after `trim`, truncates the captured output
at the tag position, and finally trims trailing whitespace. -/

def exitTag : List Char := "EXIT_CODE:".toList

/-- `occursAt tag s i` holds when `tag` occurs in `s` starting at index `i`. -/
def occursAt (tag s : List Char) (i : Nat) : Bool :=
  decide ((s.drop i).take tag.length = tag)

/-- Search for the start index of the rightmost occurrence of `tag`,
scanning candidate indices from `n` down to `0`, as Rust's `str::rfind`
scans from the right end of the string. -/
def rfindFrom (tag s : List Char) : Nat → Option Nat
  | 0 => if occursAt tag s 0 then some 0 else none
  | n + 1 => if occursAt tag s (n + 1) then some (n + 1) else rfindFrom tag s n

/-- Model of Rust's `str::rfind` for a fixed pattern: index of the start of
the last occurrence of `tag` in `s`, or `none`. -/
def rfind (tag s : List Char) : Option Nat :=
  rfindFrom tag s s.length

def trimStartChars (cs : List Char) : List Char :=
  cs.dropWhile Char.isWhitespace

def trimEndChars (cs : List Char) : List Char :=
  (cs.reverse.dropWhile Char.isWhitespace).reverse

/-- Model of Rust's `str::trim`. -/
def trimChars (cs : List Char) : List Char :=
  trimEndChars (trimStartChars cs)

/-- Digit run of Rust's `i32::from_str`: at least one ASCII digit and
nothing else; accumulates the value in base 10. -/
def parseNatDigits (cs : List Char) : Option Nat :=
  if cs.isEmpty then none
  else
    cs.foldl
      (fun acc c =>
        acc.bind fun n =>
          if c.isDigit then some (n * 10 + (c.toNat - '0'.toNat)) else none)
      (some 0)

/-- Model of Rust's `str::parse::<i32>`: optional sign, a run of digits,
and a range check against the `i32` bounds. -/
def parseI32 (cs : List Char) : Option Int :=
  match cs with
  | '+' :: rest =>
      (parseNatDigits rest).bind fun n =>
        if n ≤ 2147483647 then some (n : Int) else none
  | '-' :: rest =>
      (parseNatDigits rest).bind fun n =>
        if n ≤ 2147483648 then some (-(n : Int)) else none
  | _ =>
      (parseNatDigits cs).bind fun n =>
        if n ≤ 2147483647 then some (n : Int) else none

/-- Exit-code recovery of `PowerShellClient::exec`: locate the last
occurrence of the tag in the captured standard output, parse the trailing
integer (`-1` when the parse fails), truncate the output at the tag
position and trim its trailing whitespace. `none` models the `bail!` path
taken when the tag is not found. -/
def recoverExit (out : List Char) : Option (List Char × Int) :=
  match rfind exitTag out with
  | none => none
  | some pos =>
      let code_str := trimChars (out.drop (pos + exitTag.length))
      let exit_code := (parseI32 code_str).getD (-1)
      some (trimEndChars (out.take pos), exit_code)

/-! ## Dependency resolution (main.rs, get_required_things, lines 185-204)

The Rust loop maintains a memoized map `resolved : HashMap<ScoopApp,
HashSet<ScoopApp>>` and a work queue `to_resolve : VecDeque<ScoopApp>`
seeded with the configured roots. Each dequeued package already present as
a key of `resolved` is skipped; otherwise its dependency query runs — on
failure the package is skipped, on success its dependencies are pushed at
the back of the queue and the package is recorded.

The embedding is parametric in the (finite, linearly ordered) package
universe `α` and in the dependency query `deps : α → Option (Finset α)`
(`none` models a failing `get_dependencies_of` call). The map is an
association list whose keys the loop keeps distinct, and the loop carries
fuel; the fuel bound `resolveFuel` is proved sufficient below, which is
the termination argument for the Rust loop. The linear order only fixes
one concrete enqueue order for a dependency set, standing in for the
arbitrary iteration order of the Rust `HashSet`; the order-independence
theorem below shows the choice is irrelevant to the resolved key set. -/

/-- `HashMap::contains_key` on the association-list model of `resolved`. -/
def keyMem {β : Type} [DecidableEq β] (resolved : List (β × Finset β)) (a : β) : Bool :=
  resolved.any fun kv => decide (kv.1 = a)

/-- `HashMap::keys` on the association-list model of `resolved`. -/
def resolvedKeys {β : Type} (resolved : List (β × Finset β)) : List β :=
  resolved.map Prod.fst

variable {α : Type} [LinearOrder α]

/-- Enumerate a multiset as its sorted list of elements. Insertion sort is
used so that the definition reduces inside the kernel on closed inputs. -/
def sortedListOfMultiset (m : Multiset α) : List α :=
  Quot.liftOn m (fun l => List.insertionSort (· ≤ ·) l) fun l₁ l₂ h =>
    List.eq_of_perm_of_sorted
      ((List.perm_insertionSort _ l₁).trans (h.trans (List.perm_insertionSort _ l₂).symm))
      (List.sorted_insertionSort _ l₁) (List.sorted_insertionSort _ l₂)

/-- One concrete enumeration of a dependency set, modelling iteration over
the Rust `HashSet` of dependencies when they are pushed onto the queue. -/
def enqueueList (ds : Finset α) : List α :=
  sortedListOfMultiset ds.val

/-- One iteration of the resolver body on a dequeued package `a`: skip it
when it is already a key, skip it when its dependency query fails, and
otherwise record it and emit its dependencies for the queue. Returns the
updated map together with the packages to push onto the queue. -/
def resolveStep (deps : α → Option (Finset α))
    (resolved : List (α × Finset α)) (a : α) :
    List (α × Finset α) × List α :=
  if keyMem resolved a then (resolved, [])
  else
    match deps a with
    | none => (resolved, [])
    | some ds => ((a, ds) :: resolved, enqueueList ds)

variable [Fintype α]

/-- The `while let Some(app) = to_resolve.pop_front()` loop of
`get_required_things`, with explicit fuel. The queue is FIFO: dequeue at
the front, enqueue dependencies at the back. -/
def resolveLoop (deps : α → Option (Finset α)) :
    Nat → List (α × Finset α) → List α → List (α × Finset α)
  | _, resolved, [] => resolved
  | 0, resolved, _ :: _ => resolved
  | fuel + 1, resolved, a :: rest =>
      if keyMem resolved a then resolveLoop deps fuel resolved rest
      else
        match deps a with
        | none => resolveLoop deps fuel resolved rest
        | some ds =>
            resolveLoop deps fuel ((a, ds) :: resolved) (rest ++ enqueueList ds)

/-- Fuel sufficient for `resolveLoop` to drain its queue (proved below). -/
def resolveFuel (roots : List α) : Nat :=
  roots.length + Fintype.card α * (Fintype.card α + 1)

/-- The dependency-resolution core of `get_required_things`: run the loop
from an empty map on the configured root packages. -/
def resolve (deps : α → Option (Finset α)) (roots : List α) :
    List (α × Finset α) :=
  resolveLoop deps (resolveFuel roots) [] roots

/-- A variant of the resolver loop in which each iteration dequeues the
element chosen by `pick` (reduced modulo the queue length) instead of the
front element, used to show that the traversal order does not affect the
resolved key set. `pick := fun x => 0` recovers the FIFO loop. -/
def resolveLoopAny (deps : α → Option (Finset α)) (pick : List α → Nat) :
    Nat → List (α × Finset α) → List α → List (α × Finset α)
  | _, resolved, [] => resolved
  | 0, resolved, _ :: _ => resolved
  | fuel + 1, resolved, b :: bs =>
      let i : Fin (b :: bs).length :=
        ⟨pick (b :: bs) % (bs.length + 1), Nat.mod_lt _ (Nat.succ_pos _)⟩
      let p := resolveStep deps resolved ((b :: bs).get i)
      resolveLoopAny deps pick fuel p.1 ((b :: bs).eraseIdx i.1 ++ p.2)

def resolveAny (deps : α → Option (Finset α)) (pick : List α → Nat)
    (roots : List α) : List (α × Finset α) :=
  resolveLoopAny deps pick (resolveFuel roots) [] roots

/-- Reachability from the roots through packages whose dependency query
succeeds: roots are reachable, and every dependency returned by a
successful query on a reachable package is reachable. -/
inductive Reaches (deps : α → Option (Finset α)) (roots : List α) : α → Prop
  | root {a : α} : a ∈ roots → Reaches deps roots a
  | step {a b : α} {ds : Finset α} :
      Reaches deps roots a → deps a = some ds → b ∈ ds → Reaches deps roots b

/-- Loop invariant of the resolver: recorded entries are reachable with
the recorded dependency set, queued packages are reachable, every root and
every recorded dependency is recorded, failed, or still queued, and the
recorded keys are distinct. -/
def ResolveInv (deps : α → Option (Finset α)) (roots : List α)
    (resolved : List (α × Finset α)) (queue : List α) : Prop :=
  (∀ kv ∈ resolved, Reaches deps roots kv.1 ∧ deps kv.1 = some kv.2) ∧
  (∀ a ∈ queue, Reaches deps roots a) ∧
  (∀ a ∈ roots, a ∈ resolvedKeys resolved ∨ deps a = none ∨ a ∈ queue) ∧
  (∀ kv ∈ resolved, ∀ b ∈ kv.2,
      b ∈ resolvedKeys resolved ∨ deps b = none ∨ b ∈ queue) ∧
  (resolvedKeys resolved).Nodup

/-- Decreasing measure justifying `resolveFuel`: pending queue entries
plus capacity for the keys not yet recorded, each weighted by the largest
possible burst of enqueued dependencies. -/
def loopBound (resolved : List (α × Finset α)) (queue : List α) : Nat :=
  queue.length +
    (Fintype.card α - (resolvedKeys resolved).toFinset.card) * (Fintype.card α + 1)

/-! ## Reconciliation data model (main.rs, lines 18-59 and 145-382) -/

structure ScoopBucket where
  name : String
  source : String
deriving DecidableEq

structure ScoopApp where
  name : String
  bucket_name : String
deriving DecidableEq

/-- `Display for ScoopApp`: the canonical `bucket_name/name` text. -/
def ScoopApp.display (a : ScoopApp) : String :=
  a.bucket_name ++ "/" ++ a.name

/-- `RequiredThings`: the configured buckets plus the resolved dependency
map (`HashMap<ScoopApp, HashSet<ScoopApp>>` as an association list). -/
structure RequiredThings where
  scoop_buckets : List ScoopBucket
  scoop_apps : List (ScoopApp × Finset ScoopApp)

/-- `InstalledThings`: buckets and apps reported by `scoop export`. -/
structure InstalledThings where
  scoop_buckets : List ScoopBucket
  scoop_apps : Finset ScoopApp

structure ThingsToUninstall where
  scoop_buckets : Finset ScoopBucket
  scoop_apps : Finset ScoopApp

structure ThingsToInstall where
  scoop_buckets : Finset ScoopBucket
  scoop_apps : Finset ScoopApp

def ThingsToUninstall.isEmptyPlan (t : ThingsToUninstall) : Bool :=
  decide (t.scoop_apps = ∅) && decide (t.scoop_buckets = ∅)

def ThingsToInstall.isEmptyPlan (t : ThingsToInstall) : Bool :=
  decide (t.scoop_apps = ∅) && decide (t.scoop_buckets = ∅)

/-- `compute_things_to_uninstall` (main.rs, lines 305-328): installed
buckets absent from the required bucket list (full structural equality),
and installed apps that are not keys of the required dependency map. -/
def compute_things_to_uninstall (installed : InstalledThings)
    (required : RequiredThings) : ThingsToUninstall :=
  { scoop_buckets :=
      installed.scoop_buckets.foldl
        (fun s b => if b ∈ required.scoop_buckets then s else insert b s) ∅
  , scoop_apps :=
      installed.scoop_apps.filter fun a => keyMem required.scoop_apps a = false }

/-- `compute_things_to_install` (main.rs, lines 359-382): required buckets
absent from the installed bucket list, and keys of the required dependency
map that are not installed. -/
def compute_things_to_install (installed : InstalledThings)
    (required : RequiredThings) : ThingsToInstall :=
  { scoop_buckets :=
      required.scoop_buckets.foldl
        (fun s b => if b ∈ installed.scoop_buckets then s else insert b s) ∅
  , scoop_apps :=
      (resolvedKeys required.scoop_apps).foldl
        (fun s a => if a ∈ installed.scoop_apps then s else insert a s) ∅ }

/-! ## Mutating helpers (main.rs, lines 384-463)

Each helper is embedded as the list of command lines (argument vectors) it
submits to the client when every submitted command succeeds; the claims
under verification only concern which commands are issued. -/

/-- `uninstall_buckets`: returns early without issuing a command when the
bucket list is empty, otherwise issues one `bucket rm` command. -/
def uninstall_buckets_commands (buckets : List ScoopBucket) : List (List String) :=
  let bucket_names := buckets.map fun b => b.name
  if bucket_names.isEmpty then []
  else [["bucket", "rm"] ++ bucket_names]

/-- `uninstall_apps`: returns early without issuing a command when the app
list is empty, otherwise issues one `uninstall` command. -/
def uninstall_apps_commands (apps : List ScoopApp) : List (List String) :=
  let app_ids := apps.map ScoopApp.display
  if app_ids.isEmpty then []
  else [["uninstall"] ++ app_ids]

/-- `install_buckets`: issues one `bucket add` command per bucket. -/
def install_buckets_commands (buckets : List ScoopBucket) : List (List String) :=
  buckets.map fun b => ["bucket", "add", b.name, b.source]

/-- `install_apps`: issues a single `install` command with all app ids,
with no emptiness check before submitting it. -/
def install_apps_commands (apps : List ScoopApp) : List (List String) :=
  [["install"] ++ apps.map ScoopApp.display]

/-! ## Client shutdown (client.rs, Drop for PowerShellClient, lines 188-197)

The drop handler is embedded as its trace of actions on the host process:
it writes the termination directive `exit` to standard input, flushes, and
then calls `Child::wait()`, which blocks until the process exits with no
time bound; no kill path exists in the handler. -/

inductive HostAction where
  | writeStdin : String → HostAction
  | flushStdin : HostAction
  | waitUnbounded : HostAction
  | waitTimeout : Nat → HostAction
  | kill : HostAction
deriving DecidableEq

/-- The action trace of `PowerShellClient::drop`. -/
def dropActions : List HostAction :=
  [HostAction.writeStdin "exit\n", HostAction.flushStdin, HostAction.waitUnbounded]

def HostAction.isBoundedWait : HostAction → Bool
  | HostAction.waitTimeout _ => true
  | _ => false

def HostAction.isKill : HostAction → Bool
  | HostAction.kill => true
  | _ => false

/-! ## Concrete dependency graphs used in closed instances -/

/-- A two-package universe with a self-cycle at package 0 and a mutual
cycle between 0 and 1. -/
def c1DepsFn : Fin 2 → Option (Finset (Fin 2)) :=
  fun i => if i = 0 then some {0, 1} else some {0}

/-- A three-package universe where package 2 fails its dependency query
and the others form a mutual cycle. -/
def c2DepsFn : Fin 3 → Option (Finset (Fin 3)) :=
  fun i => if i = 0 then some {1, 2} else if i = 1 then some {0} else none

/-- A two-package universe with cycles, for the traversal-order instance. -/
def c7DepsFn : Fin 2 → Option (Finset (Fin 2)) :=
  fun i => if i = 0 then some {0, 1} else some {0}

/-- A single bucket used in closed reconciliation instances. -/
def cBucket : ScoopBucket := { name := "main", source := "official" }

/-- A single app used in closed reconciliation instances. -/
def cApp : ScoopApp := { name := "git", bucket_name := "main" }

def cInstalled : InstalledThings :=
  { scoop_buckets := [cBucket], scoop_apps := {cApp} }

def cRequired : RequiredThings :=
  { scoop_buckets := [cBucket], scoop_apps := [(cApp, ∅)] }

/-! ## Helper lemmas -/

theorem keyMem_iff {β : Type} [DecidableEq β] (resolved : List (β × Finset β)) (a : β) :
    keyMem resolved a = true ↔ a ∈ resolvedKeys resolved := by
  simp [keyMem, resolvedKeys, List.any_eq_true, List.mem_map]

theorem keyMem_false_iff {β : Type} [DecidableEq β] (resolved : List (β × Finset β)) (a : β) :
    keyMem resolved a = false ↔ a ∉ resolvedKeys resolved := by
  constructor
  · intro h hmem
    rw [← keyMem_iff] at hmem
    simp [h] at hmem
  · intro h
    cases hk : keyMem resolved a with
    | false => rfl
    | true => exact absurd ((keyMem_iff _ _).1 hk) h

theorem resolvedKeys_cons {β : Type} (a : β) (ds : Finset β)
    (resolved : List (β × Finset β)) :
    resolvedKeys ((a, ds) :: resolved) = a :: resolvedKeys resolved := rfl

theorem mem_sortedListOfMultiset {m : Multiset α} {x : α} :
    x ∈ sortedListOfMultiset m ↔ x ∈ m :=
  Quotient.inductionOn m fun l => by
    simp [sortedListOfMultiset, (List.perm_insertionSort (· ≤ ·) l).mem_iff]

theorem length_sortedListOfMultiset (m : Multiset α) :
    (sortedListOfMultiset m).length = Multiset.card m :=
  Quotient.inductionOn m fun l => by
    simp [sortedListOfMultiset, (List.perm_insertionSort (· ≤ ·) l).length_eq]

theorem mem_enqueueList {ds : Finset α} {x : α} :
    x ∈ enqueueList ds ↔ x ∈ ds :=
  mem_sortedListOfMultiset

theorem length_enqueueList (ds : Finset α) :
    (enqueueList ds).length = ds.card :=
  length_sortedListOfMultiset ds.val

theorem mem_eraseIdx_or_get {β : Type} (l : List β) (i : Fin l.length) (x : β)
    (hx : x ∈ l) : x ∈ l.eraseIdx i.1 ∨ x = l.get i := by
  have hx' : x ∈ l.take i.1 ++ l.drop i.1 := by
    rw [List.take_append_drop]; exact hx
  have hdrop : l.drop i.1 = l.get i :: l.drop (i.1 + 1) := by
    rw [List.drop_eq_getElem_cons i.2]
    simp [List.get_eq_getElem]
  rw [List.eraseIdx_eq_take_drop_succ]
  rcases List.mem_append.1 hx' with h | h
  · exact Or.inl (List.mem_append.2 (Or.inl h))
  · rw [hdrop] at h
    rcases List.mem_cons.1 h with h | h
    · exact Or.inr h
    · exact Or.inl (List.mem_append.2 (Or.inr h))

/-! ## Resolver loop: invariant preservation and fuel accounting -/

theorem resolveStep_bound (deps : α → Option (Finset α))
    (resolved : List (α × Finset α)) (queue rest : List α) (a : α)
    (hlen : rest.length + 1 = queue.length) :
    loopBound (resolveStep deps resolved a).1 (rest ++ (resolveStep deps resolved a).2) + 1 ≤
      loopBound resolved queue := by
  cases hk : keyMem resolved a with
  | true =>
      have hstep : resolveStep deps resolved a = (resolved, []) := by
        simp [resolveStep, hk]
      rw [hstep]
      simp only [loopBound, List.append_nil]
      omega
  | false =>
      cases hd : deps a with
      | none =>
          have hstep : resolveStep deps resolved a = (resolved, []) := by
            simp [resolveStep, hk, hd]
          rw [hstep]
          simp only [loopBound, List.append_nil]
          omega
      | some ds =>
          have hstep : resolveStep deps resolved a =
              ((a, ds) :: resolved, enqueueList ds) := by
            simp [resolveStep, hk, hd]
          rw [hstep]
          have hnotmem : a ∉ resolvedKeys resolved :=
            (keyMem_false_iff _ _).1 hk
          simp only [loopBound, resolvedKeys_cons, List.length_append,
            List.toFinset_cons]
          rw [Finset.card_insert_of_not_mem (by simpa using hnotmem)]
          set C := Fintype.card α with hC
          set k := (resolvedKeys resolved).toFinset.card with hkk
          have hk1 : k + 1 ≤ C := by
            have hcard := Finset.card_le_univ (insert a (resolvedKeys resolved).toFinset)
            rw [Finset.card_insert_of_not_mem (by simpa using hnotmem)] at hcard
            simpa [hC, hkk] using hcard
          have hds : (enqueueList ds).length ≤ C := by
            rw [length_enqueueList]
            exact Finset.card_le_univ ds
          have hsplit : (C - k) * (C + 1) = (C - (k + 1)) * (C + 1) + (C + 1) := by
            have h' : C - k = (C - (k + 1)) + 1 := by omega
            rw [h', Nat.add_mul, Nat.one_mul]
          rw [hsplit]
          generalize (C - (k + 1)) * (C + 1) = M
          omega

theorem resolveStep_inv (deps : α → Option (Finset α)) (roots : List α)
    (resolved : List (α × Finset α)) (queue rest : List α) (a : α)
    (hmem : a ∈ queue) (hsub : rest ⊆ queue)
    (hsplitq : ∀ x ∈ queue, x ∈ rest ∨ x = a)
    (hinv : ResolveInv deps roots resolved queue) :
    ResolveInv deps roots (resolveStep deps resolved a).1
      (rest ++ (resolveStep deps resolved a).2) := by
  obtain ⟨h1, h2, h3, h4, h5⟩ := hinv
  cases hk : keyMem resolved a with
  | true =>
      have hkey : a ∈ resolvedKeys resolved := (keyMem_iff _ _).1 hk
      have hstep : resolveStep deps resolved a = (resolved, []) := by
        simp [resolveStep, hk]
      rw [hstep]
      simp only [List.append_nil]
      refine ⟨h1, fun x hx => h2 x (hsub hx), ?_, ?_, h5⟩
      · intro x hx
        rcases h3 x hx with h | h | h
        · exact Or.inl h
        · exact Or.inr (Or.inl h)
        · rcases hsplitq x h with h' | h'
          · exact Or.inr (Or.inr h')
          · exact Or.inl (h' ▸ hkey)
      · intro kv hkv b hb
        rcases h4 kv hkv b hb with h | h | h
        · exact Or.inl h
        · exact Or.inr (Or.inl h)
        · rcases hsplitq b h with h' | h'
          · exact Or.inr (Or.inr h')
          · exact Or.inl (h' ▸ hkey)
  | false =>
      have hnotmem : a ∉ resolvedKeys resolved :=
        (keyMem_false_iff _ _).1 hk
      cases hd : deps a with
      | none =>
          have hstep : resolveStep deps resolved a = (resolved, []) := by
            simp [resolveStep, hk, hd]
          rw [hstep]
          simp only [List.append_nil]
          refine ⟨h1, fun x hx => h2 x (hsub hx), ?_, ?_, h5⟩
          · intro x hx
            rcases h3 x hx with h | h | h
            · exact Or.inl h
            · exact Or.inr (Or.inl h)
            · rcases hsplitq x h with h' | h'
              · exact Or.inr (Or.inr h')
              · exact Or.inr (Or.inl (h' ▸ hd))
          · intro kv hkv b hb
            rcases h4 kv hkv b hb with h | h | h
            · exact Or.inl h
            · exact Or.inr (Or.inl h)
            · rcases hsplitq b h with h' | h'
              · exact Or.inr (Or.inr h')
              · exact Or.inr (Or.inl (h' ▸ hd))
      | some ds =>
          have hstep : resolveStep deps resolved a =
              ((a, ds) :: resolved, enqueueList ds) := by
            simp [resolveStep, hk, hd]
          rw [hstep]
          have hreach : Reaches deps roots a := h2 _ hmem
          refine ⟨?_, ?_, ?_, ?_, ?_⟩
          · intro kv hkv
            rcases List.mem_cons.1 hkv with h | h
            · subst h; exact ⟨hreach, hd⟩
            · exact h1 kv h
          · intro x hx
            rcases List.mem_append.1 hx with h | h
            · exact h2 x (hsub h)
            · exact Reaches.step hreach hd (mem_enqueueList.1 h)
          · intro x hx
            rcases h3 x hx with h | h | h
            · exact Or.inl (by rw [resolvedKeys_cons]; exact List.mem_cons_of_mem _ h)
            · exact Or.inr (Or.inl h)
            · rcases hsplitq x h with h' | h'
              · exact Or.inr (Or.inr (List.mem_append.2 (Or.inl h')))
              · exact Or.inl (by rw [resolvedKeys_cons, h']; exact List.mem_cons_self _ _)
          · intro kv hkv b hb
            rcases List.mem_cons.1 hkv with h | h
            · subst h
              exact Or.inr (Or.inr (List.mem_append.2 (Or.inr (mem_enqueueList.2 hb))))
            · rcases h4 kv h b hb with h' | h' | h'
              · exact Or.inl (by rw [resolvedKeys_cons]; exact List.mem_cons_of_mem _ h')
              · exact Or.inr (Or.inl h')
              · rcases hsplitq b h' with h'' | h''
                · exact Or.inr (Or.inr (List.mem_append.2 (Or.inl h'')))
                · exact Or.inl (by rw [resolvedKeys_cons, h'']; exact List.mem_cons_self _ _)
          · rw [resolvedKeys_cons]
            exact List.nodup_cons.2 ⟨hnotmem, h5⟩

/-- At a drained queue the invariant pins the recorded keys down exactly:
they are the packages reachable through successful queries, and they are
distinct. -/
theorem resolveInv_final (deps : α → Option (Finset α)) (roots : List α)
    (resolved : List (α × Finset α))
    (hinv : ResolveInv deps roots resolved []) :
    (∀ a, a ∈ resolvedKeys resolved ↔
        Reaches deps roots a ∧ (deps a).isSome = true) ∧
    (resolvedKeys resolved).Nodup := by
  obtain ⟨h1, _h2, h3, h4, h5⟩ := hinv
  have key_or_fail : ∀ a, Reaches deps roots a →
      a ∈ resolvedKeys resolved ∨ deps a = none := by
    intro a ha
    induction ha with
    | root h =>
        rcases h3 _ h with h' | h' | h'
        · exact Or.inl h'
        · exact Or.inr h'
        · exact absurd h' (List.not_mem_nil _)
    | step hra hdeps hmem ih =>
        rcases ih with hk | hf
        · rcases List.mem_map.1 hk with ⟨kv, hkv, hfst⟩
          have hkv2 := (h1 kv hkv).2
          rw [hfst] at hkv2
          rw [hkv2] at hdeps
          have hds := Option.some_injective _ hdeps
          rcases h4 kv hkv _ (hds ▸ hmem) with h' | h' | h'
          · exact Or.inl h'
          · exact Or.inr h'
          · exact absurd h' (List.not_mem_nil _)
        · rw [hf] at hdeps
          exact absurd hdeps (Option.noConfusion)
  refine ⟨fun a => ⟨fun ha => ?_, fun ⟨hr, hs⟩ => ?_⟩, h5⟩
  · rcases List.mem_map.1 ha with ⟨kv, hkv, hfst⟩
    obtain ⟨hre, hdeps⟩ := h1 kv hkv
    refine ⟨hfst ▸ hre, ?_⟩
    rw [← hfst, hdeps]
    rfl
  · rcases key_or_fail a hr with h | h
    · exact h
    · rw [h] at hs
      exact absurd hs (by simp)

/-- Running the pick-parametrised loop with sufficient fuel from any state
satisfying the invariant yields exactly the reachable-and-successful key
set, without duplicates. -/
theorem resolveLoopAny_final (deps : α → Option (Finset α)) (pick : List α → Nat)
    (roots : List α) :
    ∀ fuel resolved queue, loopBound resolved queue ≤ fuel →
      ResolveInv deps roots resolved queue →
      (∀ a, a ∈ resolvedKeys (resolveLoopAny deps pick fuel resolved queue) ↔
          Reaches deps roots a ∧ (deps a).isSome = true) ∧
      (resolvedKeys (resolveLoopAny deps pick fuel resolved queue)).Nodup := by
  intro fuel
  induction fuel with
  | zero =>
      intro resolved queue hb hinv
      have hq : queue = [] := by
        have hlen : queue.length = 0 := by
          simp only [loopBound] at hb
          omega
        exact List.length_eq_zero.1 hlen
      subst hq
      simpa [resolveLoopAny] using resolveInv_final deps roots resolved hinv
  | succ fuel ih =>
      intro resolved queue hb hinv
      cases queue with
      | nil =>
          simpa [resolveLoopAny] using resolveInv_final deps roots resolved hinv
      | cons b bs =>
          rw [resolveLoopAny]
          have i2 : pick (b :: bs) % (bs.length + 1) < (b :: bs).length :=
            Nat.mod_lt _ (Nat.succ_pos _)
          set i : Fin (b :: bs).length := ⟨pick (b :: bs) % (bs.length + 1), i2⟩ with hi
          have hlen : ((b :: bs).eraseIdx i.1).length + 1 = (b :: bs).length :=
            List.length_eraseIdx_add_one i.2
          have hboundstep := resolveStep_bound deps resolved (b :: bs)
            ((b :: bs).eraseIdx i.1) ((b :: bs).get i) hlen
          have hinvstep := resolveStep_inv deps roots resolved (b :: bs)
            ((b :: bs).eraseIdx i.1) ((b :: bs).get i)
            ((b :: bs).get_mem i.1 i.2)
            (List.eraseIdx_sublist (b :: bs) i.1).subset
            (fun x hx => mem_eraseIdx_or_get (b :: bs) i x hx)
            hinv
          exact ih _ _ (by omega) hinvstep

/-- With fuel at least the loop bound, the result does not depend on the
exact amount of fuel: the loop has already drained its queue. This is the
termination argument for the unbounded Rust loop. -/
theorem resolveLoopAny_fuel_irrel (deps : α → Option (Finset α))
    (pick : List α → Nat) :
    ∀ fuel₁ fuel₂ resolved queue, loopBound resolved queue ≤ fuel₁ →
      loopBound resolved queue ≤ fuel₂ →
      resolveLoopAny deps pick fuel₁ resolved queue =
        resolveLoopAny deps pick fuel₂ resolved queue := by
  intro fuel₁
  induction fuel₁ with
  | zero =>
      intro fuel₂ resolved queue hb₁ _hb₂
      have hq : queue = [] := by
        have hlen : queue.length = 0 := by
          simp only [loopBound] at hb₁
          omega
        exact List.length_eq_zero.1 hlen
      subst hq
      cases fuel₂ <;> simp [resolveLoopAny]
  | succ fuel ih =>
      intro fuel₂ resolved queue hb₁ hb₂
      cases queue with
      | nil => cases fuel₂ <;> simp [resolveLoopAny]
      | cons b bs =>
          have hqb : 0 < loopBound resolved (b :: bs) := by
            simp only [loopBound]
            simp [List.length_cons]
          cases fuel₂ with
          | zero => omega
          | succ fuel₂ =>
              rw [resolveLoopAny, resolveLoopAny]
              have i2 : pick (b :: bs) % (bs.length + 1) < (b :: bs).length :=
                Nat.mod_lt _ (Nat.succ_pos _)
              set i : Fin (b :: bs).length := ⟨pick (b :: bs) % (bs.length + 1), i2⟩ with hi
              have hlen : ((b :: bs).eraseIdx i.1).length + 1 = (b :: bs).length :=
                List.length_eraseIdx_add_one i.2
              have hboundstep := resolveStep_bound deps resolved (b :: bs)
                ((b :: bs).eraseIdx i.1) ((b :: bs).get i) hlen
              exact ih _ _ _ (by omega) (by omega)

/-- The FIFO loop of the source is the pick-parametrised loop at the
constant choice of the front element. -/
theorem resolveLoop_eq_any (deps : α → Option (Finset α)) :
    ∀ fuel resolved queue,
      resolveLoop deps fuel resolved queue =
        resolveLoopAny deps (fun _ => 0) fuel resolved queue := by
  intro fuel
  induction fuel with
  | zero =>
      intro resolved queue
      cases queue <;> simp [resolveLoop, resolveLoopAny]
  | succ fuel ih =>
      intro resolved queue
      cases queue with
      | nil => simp [resolveLoop, resolveLoopAny]
      | cons b bs =>
          rw [resolveLoop, resolveLoopAny]
          simp only [Nat.zero_mod, List.get, List.eraseIdx]
          cases hk : keyMem resolved b with
          | true => simp [resolveStep, hk, ih]
          | false =>
              cases hd : deps b with
              | none => simp [resolveStep, hk, hd, ih]
              | some ds => simp [resolveStep, hk, hd, ih]

/-- The initial state of the resolver satisfies the invariant. -/
theorem resolveInv_init (deps : α → Option (Finset α)) (roots : List α) :
    ResolveInv deps roots [] roots := by
  refine ⟨?_, ?_, ?_, ?_, ?_⟩
  · intro kv hkv
    exact absurd hkv (List.not_mem_nil _)
  · intro a ha
    exact Reaches.root ha
  · intro a ha
    exact Or.inr (Or.inr ha)
  · intro kv hkv
    exact absurd hkv (List.not_mem_nil _)
  · simp [resolvedKeys]

theorem loopBound_init (resolved : List (α × Finset α)) (roots : List α)
    (h : resolved = []) : loopBound resolved roots = resolveFuel roots := by
  subst h
  simp [loopBound, resolveFuel, resolvedKeys]

/-- Characterisation of the key set produced by the pick-parametrised
resolver: exactly the packages reachable from the roots through successful
queries, with no duplicates. -/
theorem resolveAny_keys (deps : α → Option (Finset α)) (pick : List α → Nat)
    (roots : List α) :
    (∀ a, a ∈ resolvedKeys (resolveAny deps pick roots) ↔
        Reaches deps roots a ∧ (deps a).isSome = true) ∧
    (resolvedKeys (resolveAny deps pick roots)).Nodup := by
  have hb : loopBound ([] : List (α × Finset α)) roots ≤ resolveFuel roots := by
    rw [loopBound_init _ _ rfl]
  exact resolveLoopAny_final deps pick roots (resolveFuel roots) [] roots hb
    (resolveInv_init deps roots)

/-- Characterisation of the key set produced by the source's FIFO
resolver. -/
theorem resolve_keys (deps : α → Option (Finset α)) (roots : List α) :
    (∀ a, a ∈ resolvedKeys (resolve deps roots) ↔
        Reaches deps roots a ∧ (deps a).isSome = true) ∧
    (resolvedKeys (resolve deps roots)).Nodup := by
  have heq : resolve deps roots = resolveAny deps (fun _ => 0) roots := by
    unfold resolve resolveAny
    exact resolveLoop_eq_any deps (resolveFuel roots) [] roots
  rw [heq]
  exact resolveAny_keys deps (fun _ => 0) roots

/-- Reachability only depends on the root list through membership. -/
theorem reaches_congr (deps : α → Option (Finset α)) (roots₁ roots₂ : List α)
    (h : ∀ a, a ∈ roots₁ ↔ a ∈ roots₂) (a : α) :
    Reaches deps roots₁ a → Reaches deps roots₂ a := by
  intro ha
  induction ha with
  | root hr => exact Reaches.root ((h _).1 hr)
  | step _hra hdeps hmem ih => exact Reaches.step ih hdeps hmem

/-! ## Claim C1 -/

/-- C1: on every dependency graph, including graphs with self-cycles and
mutual cycles, the resolver terminates — running the loop with any extra
fuel beyond `resolveFuel` leaves the result unchanged, i.e. the queue is
already drained — and the resolved mapping's keys are distinct (each
recorded package appears exactly once) and consist only of packages whose
dependency query succeeded. -/
theorem resolve_terminates_keys_once (deps : α → Option (Finset α))
    (roots : List α) (a : α) (extra : Nat)
    (ha : a ∈ resolvedKeys (resolve deps roots)) :
    (resolvedKeys (resolve deps roots)).Nodup ∧ (deps a).isSome = true ∧
    resolveLoop deps (resolveFuel roots + extra) [] roots = resolve deps roots := by
  obtain ⟨hchar, hnodup⟩ := resolve_keys deps roots
  refine ⟨hnodup, ((hchar a).1 ha).2, ?_⟩
  have hb : loopBound ([] : List (α × Finset α)) roots = resolveFuel roots :=
    loopBound_init _ _ rfl
  unfold resolve
  rw [resolveLoop_eq_any, resolveLoop_eq_any]
  exact resolveLoopAny_fuel_irrel deps (fun _ => 0) _ _ [] roots (by omega) (by omega)

/-- Witness for C1 on the concrete cyclic graph `c1DepsFn`. -/
theorem resolve_terminates_keys_once_witness :
    (resolvedKeys (resolve c1DepsFn [0])).Nodup ∧ (c1DepsFn 0).isSome = true ∧
    resolveLoop c1DepsFn (resolveFuel ([0] : List (Fin 2)) + 3) [] [0] =
      resolve c1DepsFn [0] :=
  resolve_terminates_keys_once c1DepsFn [0] 0 3 (by decide)

/-! ## Claim C2 -/

/-- C2: if the dependency query fails for exactly one package `X` and
succeeds for all other packages, the resolver still records every other
package reachable from the roots through successfully-resolved packages,
and `X` itself is absent from the resolved keys. -/
theorem resolve_partial_failure (deps : α → Option (Finset α)) (roots : List α)
    (X : α) (hX : deps X = none)
    (hothers : ∀ y, y ≠ X → (deps y).isSome = true) :
    X ∉ resolvedKeys (resolve deps roots) ∧
    (∀ a, a ≠ X → Reaches deps roots a →
      a ∈ resolvedKeys (resolve deps roots)) ∧
    (∀ resolved : List (α × Finset α), resolveStep deps resolved X = (resolved, [])) := by
  obtain ⟨hchar, _⟩ := resolve_keys deps roots
  refine ⟨?_, ?_, ?_⟩
  · intro hmem
    have hs := ((hchar X).1 hmem).2
    rw [hX] at hs
    exact absurd hs (by simp)
  · intro a hne hr
    exact (hchar a).2 ⟨hr, hothers a hne⟩
  · intro resolved
    cases hk : keyMem resolved X with
    | true => simp [resolveStep, hk]
    | false => simp [resolveStep, hk, hX]

/-- Witness for C2 on `c2DepsFn`: package 2 fails, is absent from the
keys, while the reachable package 1 is still resolved. -/
theorem resolve_partial_failure_witness :
    (2 : Fin 3) ∉ resolvedKeys (resolve c2DepsFn [0]) ∧
    (1 : Fin 3) ∈ resolvedKeys (resolve c2DepsFn [0]) :=
  by
  have h := resolve_partial_failure c2DepsFn [0] 2 (by decide) (by decide)
  refine ⟨h.1, h.2.1 1 (by decide) ?_⟩
  have h0 : (0 : Fin 3) ∈ [(0 : Fin 3)] := by decide
  have hd : c2DepsFn 0 = some {1, 2} := by decide
  have hm : (1 : Fin 3) ∈ ({1, 2} : Finset (Fin 3)) := by decide
  exact Reaches.step (Reaches.root h0) hd hm

/-! ## Claim C7 -/

/-- C7: for a fixed dependency function, the set of resolved keys is the
same for every dequeue policy and for every reordering (with the same
members) of the root list; membership in the key set depends only on
reachability from the roots through successfully-resolved packages. The
source's FIFO resolver is the instance `pick = fun x => 0`. -/
theorem resolve_order_independent (deps : α → Option (Finset α))
    (pick₁ pick₂ : List α → Nat) (roots₁ roots₂ : List α)
    (hroots : ∀ x, x ∈ roots₁ ↔ x ∈ roots₂) (a : α) :
    (a ∈ resolvedKeys (resolveAny deps pick₁ roots₁) ↔
      a ∈ resolvedKeys (resolveAny deps pick₂ roots₂)) ∧
    (a ∈ resolvedKeys (resolveAny deps pick₁ roots₁) ↔
      Reaches deps roots₁ a ∧ (deps a).isSome = true) ∧
    (a ∈ resolvedKeys (resolve deps roots₁) ↔
      a ∈ resolvedKeys (resolveAny deps pick₁ roots₁)) := by
  obtain ⟨hchar₁, _⟩ := resolveAny_keys deps pick₁ roots₁
  obtain ⟨hchar₂, _⟩ := resolveAny_keys deps pick₂ roots₂
  obtain ⟨hcharf, _⟩ := resolve_keys deps roots₁
  refine ⟨?_, hchar₁ a, (hcharf a).trans (hchar₁ a).symm⟩
  rw [hchar₁ a, hchar₂ a]
  constructor
  · rintro ⟨hr, hs⟩
    exact ⟨reaches_congr deps roots₁ roots₂ hroots a hr, hs⟩
  · rintro ⟨hr, hs⟩
    exact ⟨reaches_congr deps roots₂ roots₁ (fun x => (hroots x).symm) a hr, hs⟩

/-- Witness for C7: FIFO versus a last-element dequeue policy, on root
lists that are permutations of each other (with a duplicate). -/
theorem resolve_order_independent_witness :
    ((1 : Fin 2) ∈ resolvedKeys (resolveAny c7DepsFn (fun _ => 0) [0, 1]) ↔
      (1 : Fin 2) ∈ resolvedKeys (resolveAny c7DepsFn (fun q => q.length - 1) [1, 0, 0])) ∧
    ((1 : Fin 2) ∈ resolvedKeys (resolve c7DepsFn [0, 1]) ↔
      (1 : Fin 2) ∈ resolvedKeys (resolveAny c7DepsFn (fun _ => 0) [0, 1])) :=
  ⟨(resolve_order_independent c7DepsFn (fun _ => 0) (fun q => q.length - 1)
      [0, 1] [1, 0, 0] (by decide) 1).1,
    (resolve_order_independent c7DepsFn (fun _ => 0) (fun q => q.length - 1)
      [0, 1] [1, 0, 0] (by decide) 1).2.2⟩

/-! ## rfind: the returned index is the last occurrence -/

theorem occursAt_iff (tag s : List Char) (i : Nat) :
    occursAt tag s i = true ↔ (s.drop i).take tag.length = tag := by
  simp [occursAt]

theorem rfindFrom_some (tag s : List Char) :
    ∀ n m, rfindFrom tag s n = some m → occursAt tag s m = true ∧ m ≤ n := by
  intro n
  induction n with
  | zero =>
      intro m h
      cases hc : occursAt tag s 0 with
      | true =>
          rw [rfindFrom, hc] at h
          simp only [if_true] at h
          cases h
          exact ⟨hc, Nat.le_refl 0⟩
      | false =>
          rw [rfindFrom, hc] at h
          simp at h
  | succ n ih =>
      intro m h
      cases hc : occursAt tag s (n + 1) with
      | true =>
          rw [rfindFrom, hc] at h
          simp only [if_true] at h
          cases h
          exact ⟨hc, Nat.le_refl _⟩
      | false =>
          rw [rfindFrom, hc] at h
          simp only [Bool.false_eq_true, if_false] at h
          obtain ⟨ho, hle⟩ := ih m h
          exact ⟨ho, Nat.le_succ_of_le hle⟩

theorem rfindFrom_ge (tag s : List Char) :
    ∀ n j, j ≤ n → occursAt tag s j = true →
      ∃ m, rfindFrom tag s n = some m ∧ j ≤ m := by
  intro n
  induction n with
  | zero =>
      intro j hj ho
      have hj0 : j = 0 := Nat.le_zero.1 hj
      subst hj0
      exact ⟨0, by rw [rfindFrom, ho]; simp, Nat.le_refl 0⟩
  | succ n ih =>
      intro j hj ho
      cases hc : occursAt tag s (n + 1) with
      | true => exact ⟨n + 1, by rw [rfindFrom, hc]; simp, hj⟩
      | false =>
          have hjn : j ≤ n := by
            rcases Nat.lt_or_ge j (n + 1) with h | h
            · omega
            · exfalso
              have hje : j = n + 1 := by omega
              rw [hje] at ho
              rw [ho] at hc
              exact Bool.noConfusion hc
          obtain ⟨m, hm, hle⟩ := ih j hjn ho
          exact ⟨m, by rw [rfindFrom, hc]; simpa using hm, hle⟩

theorem occursAt_lt_length (tag s : List Char) (i : Nat) (htag : tag ≠ [])
    (h : occursAt tag s i = true) : i < s.length := by
  by_contra hge
  have hdrop : s.drop i = [] := List.drop_eq_nil_of_le (by omega)
  rw [occursAt_iff, hdrop, List.take_nil] at h
  exact htag h.symm

theorem rfind_eq_last (tag s : List Char) (p : Nat) (htag : tag ≠ [])
    (hp : occursAt tag s p = true)
    (hlast : ∀ q, q ≤ s.length → occursAt tag s q = true → q ≤ p) :
    rfind tag s = some p := by
  have hplt : p < s.length := occursAt_lt_length tag s p htag hp
  obtain ⟨m, hm, hpm⟩ := rfindFrom_ge tag s s.length p (Nat.le_of_lt hplt) hp
  have hms := rfindFrom_some tag s s.length m hm
  have hmp : m ≤ p := hlast m hms.2 hms.1
  have : m = p := Nat.le_antisymm hmp hpm
  rw [rfind, hm, this]

/-! ## Claim C3 -/

/-- C3: `PowerShellClient::exec` locates the last occurrence of the
`EXIT_CODE:` tag in the captured standard output — even when the tag text
also occurs earlier inside legitimate output — parses the trailing
integer as the exit code, and truncates the returned stdout to exclude
everything from that last tag onward; when the tag does not occur at all
the call fails (`none`) instead of returning a result. -/
theorem exec_uses_last_exit_tag (out : List Char) (p : Nat)
    (hp : occursAt exitTag out p = true)
    (hlast : ∀ q, q ≤ out.length → occursAt exitTag out q = true → q ≤ p) :
    recoverExit out =
      some (trimEndChars (out.take p),
        (parseI32 (trimChars (out.drop (p + exitTag.length)))).getD (-1)) ∧
    ∀ s, (∀ i, occursAt exitTag s i = false) → recoverExit s = none := by
  constructor
  · have hr : rfind exitTag out = some p :=
      rfind_eq_last exitTag out p (by decide) hp hlast
    rw [recoverExit, hr]
  · intro s hs
    cases h : rfind exitTag s with
    | none => rw [recoverExit, h]
    | some m =>
        have h' : rfindFrom exitTag s s.length = some m := h
        have ho := (rfindFrom_some exitTag s s.length m h').1
        rw [hs m] at ho
        exact Bool.noConfusion ho

/-- Witness for C3: the tag text appears once inside legitimate output and
once as the real trailing tag; the reported code is the last occurrence's
(0, not 7) and only the trailing tag is stripped. -/
theorem exec_uses_last_exit_tag_witness :
    recoverExit "ok EXIT_CODE:7 mid\nEXIT_CODE:0".toList =
      some ("ok EXIT_CODE:7 mid".toList, 0) := by
  have h := (exec_uses_last_exit_tag "ok EXIT_CODE:7 mid\nEXIT_CODE:0".toList 19
    (by decide) (by decide)).1
  exact h.trans (by decide)

/-! ## Claim C9 -/

/-- C9: when the exit tag is found but the text after its last occurrence
does not parse as an integer (for instance it is empty because the command
set no exit code), `exec` does not fail: it reports exit code `-1` while
still truncating the tag from the returned stdout. -/
theorem exec_unparsable_code_neg_one (out : List Char) (p : Nat)
    (hp : occursAt exitTag out p = true)
    (hlast : ∀ q, q ≤ out.length → occursAt exitTag out q = true → q ≤ p)
    (hparse : parseI32 (trimChars (out.drop (p + exitTag.length))) = none) :
    recoverExit out = some (trimEndChars (out.take p), -1) := by
  have hr : rfind exitTag out = some p :=
    rfind_eq_last exitTag out p (by decide) hp hlast
  rw [recoverExit, hr]
  simp [hparse]

/-- Witness for C9: the trailing code text is empty, the parse fails, and
the call still succeeds with code `-1` and truncated stdout. -/
theorem exec_unparsable_code_neg_one_witness :
    recoverExit "hello\nEXIT_CODE:".toList = some ("hello".toList, -1) := by
  have h := exec_unparsable_code_neg_one "hello\nEXIT_CODE:".toList 6
    (by decide) (by decide) (by decide)
  exact h.trans (by decide)

/-! ## Claim C4 -/

/-- C4: the per-argument quoting rule of `PowerShellClient::exec`: wrap in
single quotes when the argument contains a double quote; otherwise wrap in
double quotes when it contains a space or a single quote; otherwise return
it unchanged. -/
theorem quote_cases (s : List Char) :
    (s.contains '"' = true → quote s = '\'' :: (s ++ ['\''])) ∧
    (s.contains '"' = false → (s.contains ' ' || s.contains '\'') = true →
      quote s = '"' :: (s ++ ['"'])) ∧
    (s.contains '"' = false → (s.contains ' ' || s.contains '\'') = false →
      quote s = s) := by
  refine ⟨fun h => ?_, fun h1 h2 => ?_, fun h1 h2 => ?_⟩
  · have h' : '"' ∈ s := by simpa using h
    simp [quote, h']
  · have h1' : '"' ∉ s := by simpa using h1
    have h2' : ' ' ∈ s ∨ '\'' ∈ s := by simpa using h2
    simp [quote, h1', h2']
  · have h1' : '"' ∉ s := by simpa using h1
    have h2' : ' ' ∉ s ∧ '\'' ∉ s := by simpa using h2
    simp [quote, h1', h2'.1, h2'.2]

/-- Witness for C4: `a b` is wrapped in double quotes, an argument with a
double quote is wrapped in single quotes, and `plain` is unchanged. -/
theorem quote_cases_witness :
    quote "a b".toList = "\"a b\"".toList ∧
    quote "x\"y".toList = "'x\"y'".toList ∧
    quote "plain".toList = "plain".toList := by
  have h1 := (quote_cases "a b".toList).2.1 (by decide) (by decide)
  have h2 := (quote_cases "x\"y".toList).1 (by decide)
  have h3 := (quote_cases "plain".toList).2.2 (by decide) (by decide)
  exact ⟨h1.trans (by decide), h2.trans (by decide), h3⟩

/-! ## Claim C8 -/

/-- C8 counterexample: the shutdown trace of `PowerShellClient::drop`
contains no bounded-grace-period wait and no forced termination — the
handler waits for process exit without any time bound. -/
theorem drop_no_bounded_wait_no_kill :
    dropActions.any HostAction.isBoundedWait = false ∧
    dropActions.any HostAction.isKill = false := by
  constructor <;> rfl

/-- C8 amended: on drop the client writes the termination directive to
standard input, flushes, and waits for process exit without a time bound —
there is exactly one unbounded wait and no forced termination. -/
theorem drop_writes_flushes_waits_unbounded :
    dropActions =
      [HostAction.writeStdin "exit\n", HostAction.flushStdin,
        HostAction.waitUnbounded] ∧
    dropActions.count HostAction.waitUnbounded = 1 ∧
    dropActions.any HostAction.isKill = false := by
  refine ⟨rfl, ?_, rfl⟩
  rfl

/-! ## Claim C10 -/

/-- C10: empty-input asymmetry of the mutating helpers: `uninstall_apps`
and `uninstall_buckets` issue no command for an empty collection, while
`install_apps` still issues one `install` command with no package
arguments and `install_buckets` issues no command. -/
theorem empty_collection_asymmetry :
    uninstall_apps_commands [] = [] ∧
    uninstall_buckets_commands [] = [] ∧
    install_apps_commands [] = [["install"]] ∧
    install_buckets_commands [] = [] := by
  refine ⟨rfl, rfl, rfl, rfl⟩

/-! ## Reconciliation diffs -/

/-- Membership in a conditional-insert fold, the functional rendering of
the source's `for x in xs { if !skip(x) { set.insert(x) } }` loops. -/
theorem mem_foldl_insert {β : Type} [DecidableEq β] (skip : β → Prop)
    [DecidablePred skip] :
    ∀ (l : List β) (init : Finset β) (x : β),
      x ∈ l.foldl (fun s b => if skip b then s else insert b s) init ↔
        x ∈ init ∨ (x ∈ l ∧ ¬ skip x) := by
  intro l
  induction l with
  | nil =>
      intro init x
      simp
  | cons b bs ih =>
      intro init x
      simp only [List.foldl_cons]
      by_cases hb : skip b
      · rw [if_pos hb, ih]
        by_cases hxb : x = b
        · subst hxb
          simp [hb]
        · simp [List.mem_cons, hxb]
      · rw [if_neg hb, ih]
        by_cases hxb : x = b
        · subst hxb
          simp [Finset.mem_insert, hb]
        · simp [Finset.mem_insert, List.mem_cons, hxb]

theorem compute_uninstall_mem_buckets (installed : InstalledThings)
    (required : RequiredThings) (b : ScoopBucket) :
    b ∈ (compute_things_to_uninstall installed required).scoop_buckets ↔
      b ∈ installed.scoop_buckets ∧ b ∉ required.scoop_buckets := by
  rw [compute_things_to_uninstall]
  rw [mem_foldl_insert (fun x => x ∈ required.scoop_buckets)]
  simp

theorem compute_uninstall_mem_apps (installed : InstalledThings)
    (required : RequiredThings) (a : ScoopApp) :
    a ∈ (compute_things_to_uninstall installed required).scoop_apps ↔
      a ∈ installed.scoop_apps ∧ a ∉ resolvedKeys required.scoop_apps := by
  rw [compute_things_to_uninstall]
  simp only [Finset.mem_filter]
  rw [keyMem_false_iff]

theorem compute_install_mem_buckets (installed : InstalledThings)
    (required : RequiredThings) (b : ScoopBucket) :
    b ∈ (compute_things_to_install installed required).scoop_buckets ↔
      b ∈ required.scoop_buckets ∧ b ∉ installed.scoop_buckets := by
  rw [compute_things_to_install]
  rw [mem_foldl_insert (fun x => x ∈ installed.scoop_buckets)]
  simp

theorem compute_install_mem_apps (installed : InstalledThings)
    (required : RequiredThings) (a : ScoopApp) :
    a ∈ (compute_things_to_install installed required).scoop_apps ↔
      a ∈ resolvedKeys required.scoop_apps ∧ a ∉ installed.scoop_apps := by
  rw [compute_things_to_install]
  rw [mem_foldl_insert (fun x => x ∈ installed.scoop_apps)]
  simp

/-! ## Claim C5 -/

/-- C5: the uninstall plan consists exactly of the installed buckets not
present (by full name-and-source equality) in the required bucket list,
and the installed apps whose identity is not a key of the required
dependency map; in particular an app that appears only among the values of
the map (a dependency whose own resolution failed) is still slated for
uninstall unless it independently appears as a key. -/
theorem uninstall_plan_exact (installed : InstalledThings)
    (required : RequiredThings) (b : ScoopBucket) (a : ScoopApp) :
    (b ∈ (compute_things_to_uninstall installed required).scoop_buckets ↔
      b ∈ installed.scoop_buckets ∧ b ∉ required.scoop_buckets) ∧
    (a ∈ (compute_things_to_uninstall installed required).scoop_apps ↔
      a ∈ installed.scoop_apps ∧ a ∉ resolvedKeys required.scoop_apps) :=
  ⟨compute_uninstall_mem_buckets installed required b,
    compute_uninstall_mem_apps installed required a⟩

/-! ## Claim C6 -/

/-- C6: reconciliation is idempotent: when the installed state equals a
fully applied plan for the required state — installed buckets coincide
with the required bucket list as a set, installed apps coincide with the
required keys — both recomputed plans are empty. -/
theorem reconcile_idempotent (installed : InstalledThings)
    (required : RequiredThings)
    (hb : ∀ b : ScoopBucket,
      b ∈ installed.scoop_buckets ↔ b ∈ required.scoop_buckets)
    (ha : ∀ a : ScoopApp,
      a ∈ installed.scoop_apps ↔ a ∈ resolvedKeys required.scoop_apps) :
    (compute_things_to_uninstall installed required).isEmptyPlan = true ∧
    (compute_things_to_install installed required).isEmptyPlan = true := by
  have hub : (compute_things_to_uninstall installed required).scoop_buckets = ∅ := by
    rw [Finset.eq_empty_iff_forall_not_mem]
    intro b hmem
    rw [compute_uninstall_mem_buckets] at hmem
    exact hmem.2 ((hb b).1 hmem.1)
  have hua : (compute_things_to_uninstall installed required).scoop_apps = ∅ := by
    rw [Finset.eq_empty_iff_forall_not_mem]
    intro a hmem
    rw [compute_uninstall_mem_apps] at hmem
    exact hmem.2 ((ha a).1 hmem.1)
  have hib : (compute_things_to_install installed required).scoop_buckets = ∅ := by
    rw [Finset.eq_empty_iff_forall_not_mem]
    intro b hmem
    rw [compute_install_mem_buckets] at hmem
    exact hmem.2 ((hb b).2 hmem.1)
  have hia : (compute_things_to_install installed required).scoop_apps = ∅ := by
    rw [Finset.eq_empty_iff_forall_not_mem]
    intro a hmem
    rw [compute_install_mem_apps] at hmem
    exact hmem.2 ((ha a).2 hmem.1)
  constructor
  · rw [ThingsToUninstall.isEmptyPlan, hub, hua]
    rfl
  · rw [ThingsToInstall.isEmptyPlan, hib, hia]
    rfl

/-- Witness for C6: an installed state that matches the required state
exactly yields two empty plans. -/
theorem reconcile_idempotent_witness :
    (compute_things_to_uninstall cInstalled cRequired).isEmptyPlan = true ∧
    (compute_things_to_install cInstalled cRequired).isEmptyPlan = true :=
  reconcile_idempotent cInstalled cRequired (fun b => Iff.rfl)
    (by intro a; simp [cInstalled, cRequired, resolvedKeys])

end DeclarativeScoop
